import Mathlib

set_option maxRecDepth 4000

/-!
Shallow embedding of `queueimpl3/queueimpl3.go` (package `queueimpl3`):
an unbounded FIFO queue storing values in fixed-size slices (capacity 128)
linked into a singly linked list of nodes.

Heap representation. A Go `Node` is represented by its value slice
`List (Option α)` (a slot holds `none` after the `q.head.v[q.pos] = nil`
clearing write, and `some v` for a stored value `v`). The node chain that the
queue can still reach is represented structurally:

  * `front` : the value slices of the nodes from `q.head` up to but NOT
    including `q.tail`, in chain order (empty when `head == tail`);
  * `tailV` : the value slice of the node `q.tail` points to;
  * `headNil` : whether the Go pointer `q.head` is `nil` (this happens when
    `Pop` advances `head` to `head.n` and `head.n` is `nil`; `tail` keeps
    pointing at the old, fully drained node). While `headNil` is true the
    only node the queue references is the tail node, so `front` is kept `[]`.

Operations that can panic in Go (indexing a slice out of range, or reading a
field of the `nil` head pointer) return `none`; a normal return is `some`.
-/

def internalSliceSize : Nat := 128

def internalSliceLastPosition : Nat := 127

structure Queueimpl3 (α : Type) where
  front : List (List (Option α))
  tailV : List (Option α)
  headNil : Bool
  pos : Nat
  len : Nat
deriving DecidableEq, Repr

def newNode {α : Type} : List (Option α) := []

def Queueimpl3.Init {α : Type} (_q : Queueimpl3 α) : Queueimpl3 α :=
  { front := [], tailV := newNode, headNil := false, pos := 0, len := 0 }

def Queueimpl3.New {α : Type} : Queueimpl3 α :=
  Queueimpl3.Init { front := [], tailV := [], headNil := true, pos := 0, len := 0 }

def Queueimpl3.Len {α : Type} (q : Queueimpl3 α) : Nat := q.len

/-- The value slice of the node `q.head` points to (meaningful when
`q.headNil = false`): the first node of `front`, or the tail node when
`head == tail`. -/
def Queueimpl3.headV {α : Type} (q : Queueimpl3 α) : List (Option α) :=
  match q.front with
  | [] => q.tailV
  | b :: _ => b

def Queueimpl3.Front {α : Type} (q : Queueimpl3 α) : Option (Option α × Bool) :=
  if q.len = 0 then some (none, false)
  else if q.headNil then none
  else match q.headV[q.pos]? with
    | none => none
    | some v => some (v, true)

def Queueimpl3.Push {α : Type} (q : Queueimpl3 α) (v : α) : Queueimpl3 α :=
  if internalSliceSize ≤ q.tailV.length then
    -- a fresh node is linked as q.tail.n and becomes the new tail;
    -- when head is nil the old tail node becomes unreachable from the queue
    if q.headNil then
      { q with tailV := [some v], len := q.len + 1 }
    else
      { q with front := q.front ++ [q.tailV], tailV := [some v], len := q.len + 1 }
  else
    { q with tailV := q.tailV ++ [some v], len := q.len + 1 }

def Queueimpl3.Pop {α : Type} (q : Queueimpl3 α) : Option (Option α × Bool × Queueimpl3 α) :=
  if q.len = 0 then some (none, false, q)
  else if q.headNil then none
  else match q.headV[q.pos]? with
    | none => none
    | some v =>
      if internalSliceLastPosition ≤ q.pos then
        match q.front with
        | [] =>
          -- head == tail and head.n is nil: head becomes nil, the drained
          -- node stays referenced by tail only
          some (v, true, { q with tailV := q.tailV.set q.pos none,
                                  headNil := true, pos := 0, len := q.len - 1 })
        | _b :: rest =>
          -- head advances to head.n; the old head node (with its slot
          -- cleared and its n link nilled) is no longer queue-reachable
          some (v, true, { q with front := rest, pos := 0, len := q.len - 1 })
      else
        match q.front with
        | [] =>
          some (v, true, { q with tailV := q.tailV.set q.pos none,
                                  pos := q.pos + 1, len := q.len - 1 })
        | b :: rest =>
          some (v, true, { q with front := (b.set q.pos none) :: rest,
                                  pos := q.pos + 1, len := q.len - 1 })

/-- Push a whole list of values, first element first. -/
def pushAll {α : Type} (q : Queueimpl3 α) (vs : List α) : Queueimpl3 α :=
  vs.foldl Queueimpl3.Push q

/-- Call `Pop` `n` times, collecting the `(value, found)` results; `none` if
some call panics. -/
def popN {α : Type} (q : Queueimpl3 α) : Nat → Option (List (Option α × Bool) × Queueimpl3 α)
  | 0 => some ([], q)
  | n + 1 =>
    match q.Pop with
    | none => none
    | some (v, f, q') =>
      match popN q' n with
      | none => none
      | some (l, q'') => some ((v, f) :: l, q'')

inductive Op (α : Type) where
  | push (v : α)
  | pop
deriving DecidableEq, Repr

/-- Run a sequence of Push/Pop operations from a state, returning the final
state together with the number of pushes and the number of successful pops;
`none` if some operation panics. -/
def runOps {α : Type} : Queueimpl3 α → List (Op α) → Option (Queueimpl3 α × Nat × Nat)
  | q, [] => some (q, 0, 0)
  | q, Op.push v :: rest =>
    match runOps (q.Push v) rest with
    | none => none
    | some (q', p, s) => some (q', p + 1, s)
  | q, Op.pop :: rest =>
    match q.Pop with
    | none => none
    | some (_v, f, q') =>
      match runOps q' rest with
      | none => none
      | some (q'', p, s) => some (q'', p, if f then s + 1 else s)

/-- States reachable from a fresh queue by the public interface
(`New`/`Init`, `Push`, `Pop`; `Len` and `Front` do not write any field). -/
inductive Reachable {α : Type} : Queueimpl3 α → Prop where
  | init : Reachable Queueimpl3.New
  | reinit (q : Queueimpl3 α) : Reachable q → Reachable q.Init
  | push (q : Queueimpl3 α) (v : α) : Reachable q → Reachable (q.Push v)
  | pop (q : Queueimpl3 α) (v : Option α) (f : Bool) (q' : Queueimpl3 α) :
      Reachable q → q.Pop = some (v, f, q') → Reachable q'

/-- The value slices of the nodes reachable from `q.head` ONLY, head node
first. This is empty when the head pointer is nil, which does NOT mean the
queue references no node: `q.tail` still points at the drained node (its
slice stays in `tailV` and governs the next `Push`); `Queueimpl3.refBlocks`
below accounts for that reference as well. -/
def Queueimpl3.liveBlocks {α : Type} (q : Queueimpl3 α) : List (List (Option α)) :=
  if q.headNil then [] else q.front ++ [q.tailV]

/-- The value slices of all nodes the queue still holds a reference into:
the chain reachable from `q.head` plus the node `q.tail` points to. When the
head pointer is nil the tail node is still referenced, even if fully
drained. -/
def Queueimpl3.refBlocks {α : Type} (q : Queueimpl3 α) : List (List (Option α)) :=
  if q.headNil then [q.tailV] else q.front ++ [q.tailV]

/-- Concatenation of a chain of node slices ending in a tail slice. -/
def flatChain {α : Type} (front : List (List α)) (tl : List α) : List α :=
  front.foldr (· ++ ·) tl

@[simp] theorem flatChain_nil {α : Type} (tl : List α) : flatChain [] tl = tl := rfl

@[simp] theorem flatChain_cons {α : Type} (b : List α) (rest : List (List α)) (tl : List α) :
    flatChain (b :: rest) tl = b ++ flatChain rest tl := rfl

theorem flatChain_append_one {α : Type} (front : List (List α)) (b tl : List α) :
    flatChain (front ++ [b]) tl = flatChain front (b ++ tl) := by
  induction front with
  | nil => rfl
  | cons c rest ih => rw [List.cons_append, flatChain_cons, flatChain_cons, ih]

theorem flatChain_tl_append {α : Type} (front : List (List α)) (tl l : List α) :
    flatChain front (tl ++ l) = flatChain front tl ++ l := by
  induction front with
  | nil => rfl
  | cons c rest ih => rw [flatChain_cons, flatChain_cons, ih, List.append_assoc]

/-- The logical contents of a queue whose head is not nil: all slots from
`pos` onward, in chain order. -/
def absQ {α : Type} (q : Queueimpl3 α) : List (Option α) :=
  (flatChain q.front q.tailV).drop q.pos

/-- Representation invariant relating a (live-head) queue state to the list
of values it logically holds, oldest first. -/
def ModelsL {α : Type} (q : Queueimpl3 α) (l : List α) : Prop :=
  q.headNil = false ∧
  (∀ b ∈ q.front, b.length = internalSliceSize) ∧
  q.tailV.length ≤ internalSliceSize ∧
  q.pos < internalSliceSize ∧
  q.pos + q.len = (flatChain q.front q.tailV).length ∧
  absQ q = l.map some

theorem ModelsL_New {α : Type} : ModelsL (Queueimpl3.New (α := α)) [] := by
  refine ⟨rfl, by simp [Queueimpl3.New, Queueimpl3.Init], ?_, ?_, ?_, ?_⟩ <;>
    simp [Queueimpl3.New, Queueimpl3.Init, newNode, absQ, flatChain, internalSliceSize]

theorem push_ModelsL {α : Type} {q : Queueimpl3 α} {l : List α} (v : α) (h : ModelsL q l) :
    ModelsL (q.Push v) (l ++ [v]) := by
  obtain ⟨h1, h2, h3, h4, h5, h6⟩ := h
  unfold absQ at h6
  have hpos : q.pos ≤ (flatChain q.front q.tailV).length := by omega
  unfold Queueimpl3.Push
  by_cases hfull : internalSliceSize ≤ q.tailV.length
  · have htl : q.tailV.length = internalSliceSize := le_antisymm h3 hfull
    rw [if_pos hfull, h1]
    simp only [Bool.false_eq_true, if_false]
    refine ⟨rfl, ?_, ?_, h4, ?_, ?_⟩
    · intro b hb
      rcases List.mem_append.1 hb with hb | hb
      · exact h2 b hb
      · rw [List.mem_singleton.1 hb]; exact htl
    · simp [internalSliceSize]
    · show q.pos + (q.len + 1) = (flatChain (q.front ++ [q.tailV]) [some v]).length
      rw [flatChain_append_one, flatChain_tl_append]
      simp only [List.length_append, List.length_singleton]
      omega
    · show (flatChain (q.front ++ [q.tailV]) [some v]).drop q.pos = (l ++ [v]).map some
      rw [flatChain_append_one, flatChain_tl_append,
        List.drop_append_of_le_length hpos, h6]
      simp
  · rw [if_neg hfull]
    refine ⟨h1, h2, ?_, h4, ?_, ?_⟩
    · show (q.tailV ++ [some v]).length ≤ internalSliceSize
      simp only [List.length_append, List.length_singleton]
      omega
    · show q.pos + (q.len + 1) = (flatChain q.front (q.tailV ++ [some v])).length
      rw [flatChain_tl_append]
      simp only [List.length_append, List.length_singleton]
      omega
    · show (flatChain q.front (q.tailV ++ [some v])).drop q.pos = (l ++ [v]).map some
      rw [flatChain_tl_append, List.drop_append_of_le_length hpos, h6]
      simp

theorem drop_set_of_lt {β : Type} (l : List β) (i j : Nat) (a : β) (hij : i < j) :
    (l.set i a).drop j = l.drop j := by
  induction l generalizing i j with
  | nil => simp
  | cons b t ih =>
    match j, hij with
    | j' + 1, _ =>
      match i with
      | 0 => simp
      | i' + 1 =>
        simp only [List.set_cons_succ, List.drop_succ_cons]
        exact ih i' j' (by omega)

/-- Computation rule for a `Pop` that gets past the two guards. -/
theorem Pop_eq_of {α : Type} (q : Queueimpl3 α) (v : Option α) (hlen : ¬ q.len = 0)
    (h1 : q.headNil = false) (hget : q.headV[q.pos]? = some v) :
    q.Pop =
      if internalSliceLastPosition ≤ q.pos then
        match q.front with
        | [] => some (v, true, { q with tailV := q.tailV.set q.pos none,
                                        headNil := true, pos := 0, len := q.len - 1 })
        | _b :: rest => some (v, true, { q with front := rest, pos := 0, len := q.len - 1 })
      else
        match q.front with
        | [] => some (v, true, { q with tailV := q.tailV.set q.pos none,
                                        pos := q.pos + 1, len := q.len - 1 })
        | b :: rest => some (v, true, { q with front := (b.set q.pos none) :: rest,
                                               pos := q.pos + 1, len := q.len - 1 }) := by
  unfold Queueimpl3.Pop
  rw [if_neg hlen, h1, if_neg Bool.false_ne_true, hget]

theorem pop_ModelsL_nil {α : Type} {q : Queueimpl3 α} (h : ModelsL q []) :
    q.Pop = some (none, false, q) := by
  obtain ⟨_h1, _h2, _h3, _h4, h5, h6⟩ := h
  unfold absQ at h6
  simp only [List.map_nil] at h6
  have hle : (flatChain q.front q.tailV).length ≤ q.pos := List.drop_eq_nil_iff.1 h6
  have hlen : q.len = 0 := by omega
  unfold Queueimpl3.Pop
  rw [if_pos hlen]

theorem pop_ModelsL_cons {α : Type} {q : Queueimpl3 α} {x : α} {xs : List α}
    (h : ModelsL q (x :: xs)) :
    ∃ q', q.Pop = some (some x, true, q') ∧ (ModelsL q' xs ∨ (xs = [] ∧ q'.len = 0)) := by
  obtain ⟨h1, h2, h3, h4, h5, h6⟩ := h
  unfold absQ at h6
  simp only [List.map_cons] at h6
  have h128 : internalSliceSize = 128 := rfl
  have h127 : internalSliceLastPosition = 127 := rfl
  have hlenabs : (flatChain q.front q.tailV).length - q.pos = xs.length + 1 := by
    have := congrArg List.length h6
    simpa using this
  have hlen : q.len = xs.length + 1 := by omega
  have hlenne : ¬ q.len = 0 := by omega
  cases hq : q.front with
  | nil =>
    rw [hq] at h5 h6
    simp only [flatChain_nil] at h5 h6
    have hget : q.headV[q.pos]? = some (some x) := by
      unfold Queueimpl3.headV
      rw [hq, ← List.head?_drop, h6]
      rfl
    by_cases hbd : internalSliceLastPosition ≤ q.pos
    · -- pos = 127: head == tail is fully drained, head becomes nil
      have hxs : xs = [] := by
        have hd := congrArg List.length h6
        simp only [List.length_drop, List.length_cons, List.length_map] at hd
        exact List.eq_nil_of_length_eq_zero (by omega)
      refine ⟨{ q with tailV := q.tailV.set q.pos none, headNil := true,
                       pos := 0, len := q.len - 1 }, ?_, Or.inr ⟨hxs, ?_⟩⟩
      · rw [Pop_eq_of q (some x) hlenne h1 hget, if_pos hbd, hq]
      · show q.len - 1 = 0
        omega
    · -- pos < 127: cursor advances within the single block
      refine ⟨{ q with tailV := q.tailV.set q.pos none,
                       pos := q.pos + 1, len := q.len - 1 }, ?_, Or.inl ?_⟩
      · rw [Pop_eq_of q (some x) hlenne h1 hget, if_neg hbd, hq]
      · refine ⟨h1, ?_, ?_, ?_, ?_, ?_⟩
        · show ∀ b ∈ q.front, b.length = internalSliceSize
          exact h2
        · show (q.tailV.set q.pos none).length ≤ internalSliceSize
          rw [List.length_set]; exact h3
        · show q.pos + 1 < internalSliceSize
          omega
        · show q.pos + 1 + (q.len - 1) = (flatChain q.front (q.tailV.set q.pos none)).length
          rw [hq]
          simp only [flatChain_nil, List.length_set]
          omega
        · show (flatChain q.front (q.tailV.set q.pos none)).drop (q.pos + 1) = xs.map some
          rw [hq]
          simp only [flatChain_nil]
          rw [drop_set_of_lt q.tailV q.pos (q.pos + 1) none (by omega),
            ← List.tail_drop, h6]
          rfl
  | cons b rest =>
    have hbl : b.length = internalSliceSize := h2 b (by rw [hq]; exact List.mem_cons_self b rest)
    rw [hq] at h5 h6
    simp only [flatChain_cons] at h5 h6
    have hposb : q.pos ≤ b.length := by omega
    rw [List.drop_append_of_le_length hposb] at h6
    have hbne : b.drop q.pos ≠ [] := by
      intro hnil
      rw [List.drop_eq_nil_iff] at hnil
      omega
    obtain ⟨y, ys, hys⟩ := List.exists_cons_of_ne_nil hbne
    rw [hys, List.cons_append, List.cons_eq_cons] at h6
    obtain ⟨hy, hysR⟩ := h6
    have hyslen : ys.length = b.length - q.pos - 1 := by
      have := congrArg List.length hys
      simp only [List.length_drop, List.length_cons] at this
      omega
    have hget : q.headV[q.pos]? = some (some x) := by
      unfold Queueimpl3.headV
      rw [hq, ← List.head?_drop, hys, hy]
      rfl
    by_cases hbd : internalSliceLastPosition ≤ q.pos
    · -- pos = 127: head advances to the next node in the chain
      have hysnil : ys = [] := List.eq_nil_of_length_eq_zero (by omega)
      refine ⟨{ q with front := rest, pos := 0, len := q.len - 1 }, ?_, Or.inl ?_⟩
      · rw [Pop_eq_of q (some x) hlenne h1 hget, if_pos hbd, hq]
      · refine ⟨h1, ?_, h3, ?_, ?_, ?_⟩
        · show ∀ c ∈ rest, c.length = internalSliceSize
          intro c hc
          exact h2 c (by rw [hq]; exact List.mem_cons_of_mem b hc)
        · show (0 : Nat) < internalSliceSize
          omega
        · show 0 + (q.len - 1) = (flatChain rest q.tailV).length
          simp only [List.length_append] at h5
          omega
        · show (flatChain rest q.tailV).drop 0 = xs.map some
          rw [List.drop_zero, ← hysR, hysnil]
          rfl
    · -- pos < 127: cursor advances within the head node
      refine ⟨{ q with front := (b.set q.pos none) :: rest,
                       pos := q.pos + 1, len := q.len - 1 }, ?_, Or.inl ?_⟩
      · rw [Pop_eq_of q (some x) hlenne h1 hget, if_neg hbd, hq]
      · refine ⟨h1, ?_, h3, ?_, ?_, ?_⟩
        · show ∀ c ∈ (b.set q.pos none) :: rest, c.length = internalSliceSize
          intro c hc
          rcases List.mem_cons.1 hc with hc | hc
          · rw [hc, List.length_set]; exact hbl
          · exact h2 c (by rw [hq]; exact List.mem_cons_of_mem b hc)
        · show q.pos + 1 < internalSliceSize
          omega
        · show q.pos + 1 + (q.len - 1) =
            (flatChain ((b.set q.pos none) :: rest) q.tailV).length
          simp only [flatChain_cons, List.length_append, List.length_set]
          simp only [List.length_append] at h5
          omega
        · show (flatChain ((b.set q.pos none) :: rest) q.tailV).drop (q.pos + 1) = xs.map some
          simp only [flatChain_cons]
          rw [List.drop_append_of_le_length (by rw [List.length_set]; omega),
            drop_set_of_lt b q.pos (q.pos + 1) none (by omega),
            ← List.tail_drop, hys, ← hysR]
          rfl

theorem pushAll_ModelsL {α : Type} (vs : List α) :
    ∀ (q : Queueimpl3 α) (l : List α), ModelsL q l → ModelsL (pushAll q vs) (l ++ vs) := by
  induction vs with
  | nil =>
    intro q l h
    simpa [pushAll] using h
  | cons v vs ih =>
    intro q l h
    have := ih (q.Push v) (l ++ [v]) (push_ModelsL v h)
    simpa [pushAll, List.foldl_cons, List.append_assoc] using this

theorem popN_ModelsL {α : Type} (l : List α) :
    ∀ (q : Queueimpl3 α), ModelsL q l →
      ∃ q', popN q l.length = some (l.map (fun v => (some v, true)), q') := by
  induction l with
  | nil =>
    intro q _h
    exact ⟨q, rfl⟩
  | cons x xs ih =>
    intro q h
    obtain ⟨q1, hPop, hrest⟩ := pop_ModelsL_cons h
    rcases hrest with hm | ⟨hxs, _hlen⟩
    · obtain ⟨q2, hN⟩ := ih q1 hm
      refine ⟨q2, ?_⟩
      show popN q (xs.length + 1) = _
      unfold popN
      rw [hPop]
      simp only [hN, List.map_cons]
    · subst hxs
      refine ⟨q1, ?_⟩
      show popN q 1 = _
      unfold popN
      rw [hPop]
      rfl

/-- C1: FIFO order — pushing the values `vs` into a fresh queue and then
calling `Pop` `vs.length` times returns exactly the values of `vs` in order,
each with `found = true` (and no call panics). -/
theorem fifo_order {α : Type} (vs : List α) :
    ∃ q', popN (pushAll Queueimpl3.New vs) vs.length =
      some (vs.map (fun v => (some v, true)), q') := by
  have h := pushAll_ModelsL vs Queueimpl3.New [] ModelsL_New
  simp only [List.nil_append] at h
  exact popN_ModelsL vs _ h

/-- Complete case analysis of a returning `Pop` call, mirroring the branch
structure of the Go function. -/
theorem pop_cases {α : Type} {q : Queueimpl3 α} {v : Option α} {f : Bool}
    {q' : Queueimpl3 α} (hp : q.Pop = some (v, f, q')) :
    (q.len = 0 ∧ v = none ∧ f = false ∧ q' = q) ∨
    (¬ q.len = 0 ∧ q.headNil = false ∧ f = true ∧ q.headV[q.pos]? = some v ∧
      ((internalSliceLastPosition ≤ q.pos ∧
         ((q.front = [] ∧
             q' = { q with tailV := q.tailV.set q.pos none, headNil := true,
                           pos := 0, len := q.len - 1 }) ∨
          (∃ b rest, q.front = b :: rest ∧
             q' = { q with front := rest, pos := 0, len := q.len - 1 }))) ∨
       (¬ internalSliceLastPosition ≤ q.pos ∧
         ((q.front = [] ∧
             q' = { q with tailV := q.tailV.set q.pos none,
                           pos := q.pos + 1, len := q.len - 1 }) ∨
          (∃ b rest, q.front = b :: rest ∧
             q' = { q with front := (b.set q.pos none) :: rest,
                           pos := q.pos + 1, len := q.len - 1 }))))) := by
  by_cases hlen : q.len = 0
  · unfold Queueimpl3.Pop at hp
    rw [if_pos hlen] at hp
    simp only [Option.some.injEq, Prod.mk.injEq] at hp
    exact Or.inl ⟨hlen, hp.1.symm, hp.2.1.symm, hp.2.2.symm⟩
  · have hn : q.headNil = false := by
      cases hnq : q.headNil
      · rfl
      · exfalso
        unfold Queueimpl3.Pop at hp
        rw [if_neg hlen, hnq, if_pos rfl] at hp
        exact Option.noConfusion hp
    cases hget : q.headV[q.pos]? with
    | none =>
      exfalso
      unfold Queueimpl3.Pop at hp
      rw [if_neg hlen, hn, if_neg Bool.false_ne_true, hget] at hp
      exact Option.noConfusion hp
    | some w =>
      rw [Pop_eq_of q w hlen hn hget] at hp
      by_cases hbd : internalSliceLastPosition ≤ q.pos
      · rw [if_pos hbd] at hp
        cases hf2 : q.front with
        | nil =>
          rw [hf2] at hp
          simp only [Option.some.injEq, Prod.mk.injEq] at hp
          obtain ⟨hw, hf, hq'⟩ := hp
          refine Or.inr ⟨hlen, hn, hf.symm, by rw [hw], Or.inl ⟨hbd, Or.inl ⟨rfl, ?_⟩⟩⟩
          rw [← hq']
        | cons b rest =>
          rw [hf2] at hp
          simp only [Option.some.injEq, Prod.mk.injEq] at hp
          obtain ⟨hw, hf, hq'⟩ := hp
          refine Or.inr ⟨hlen, hn, hf.symm, by rw [hw],
            Or.inl ⟨hbd, Or.inr ⟨b, rest, rfl, ?_⟩⟩⟩
          rw [← hq']
      · rw [if_neg hbd] at hp
        cases hf2 : q.front with
        | nil =>
          rw [hf2] at hp
          simp only [Option.some.injEq, Prod.mk.injEq] at hp
          obtain ⟨hw, hf, hq'⟩ := hp
          refine Or.inr ⟨hlen, hn, hf.symm, by rw [hw], Or.inr ⟨hbd, Or.inl ⟨rfl, ?_⟩⟩⟩
          rw [← hq']
        | cons b rest =>
          rw [hf2] at hp
          simp only [Option.some.injEq, Prod.mk.injEq] at hp
          obtain ⟨hw, hf, hq'⟩ := hp
          refine Or.inr ⟨hlen, hn, hf.symm, by rw [hw],
            Or.inr ⟨hbd, Or.inr ⟨b, rest, rfl, ?_⟩⟩⟩
          rw [← hq']

theorem push_len {α : Type} (q : Queueimpl3 α) (v : α) : (q.Push v).len = q.len + 1 := by
  unfold Queueimpl3.Push
  split
  · split <;> rfl
  · rfl

theorem push_pos {α : Type} (q : Queueimpl3 α) (v : α) : (q.Push v).pos = q.pos := by
  unfold Queueimpl3.Push
  split
  · split <;> rfl
  · rfl

theorem push_headNil {α : Type} (q : Queueimpl3 α) (v : α) :
    (q.Push v).headNil = q.headNil := by
  unfold Queueimpl3.Push
  split
  · split
    · rename_i hn
      rw [hn]
    · rfl
  · rfl

/-- Structural invariant of every reachable queue state. -/
def QInv {α : Type} (q : Queueimpl3 α) : Prop :=
  q.pos < internalSliceSize ∧
  (∀ b ∈ q.front, b.length = internalSliceSize) ∧
  q.tailV.length ≤ internalSliceSize ∧
  (q.headNil = true → q.front = [] ∧ q.pos = 0) ∧
  (q.headNil = false →
    q.pos + q.len = (flatChain q.front q.tailV).length ∧
    ∀ i, i < q.pos → q.headV[i]? = some none)

theorem QInv_New {α : Type} : QInv (Queueimpl3.New (α := α)) := by
  refine ⟨?_, ?_, ?_, ?_, ?_⟩ <;>
    simp [Queueimpl3.New, Queueimpl3.Init, newNode, internalSliceSize]

theorem QInv_push {α : Type} {q : Queueimpl3 α} (v : α) (h : QInv q) : QInv (q.Push v) := by
  obtain ⟨h1, h2, h3, h4, h5⟩ := h
  unfold Queueimpl3.Push
  by_cases hfull : internalSliceSize ≤ q.tailV.length
  · have htl : q.tailV.length = internalSliceSize := le_antisymm h3 hfull
    rw [if_pos hfull]
    cases hn : q.headNil
    · rw [if_neg Bool.false_ne_true]
      refine ⟨h1, ?_, ?_, ?_, ?_⟩
      · intro b hb
        rcases List.mem_append.1 hb with hb | hb
        · exact h2 b hb
        · rw [List.mem_singleton.1 hb]; exact htl
      · show ([some v] : List (Option α)).length ≤ internalSliceSize
        simp [internalSliceSize]
      · intro hcontra
        exact absurd hcontra Bool.false_ne_true
      · intro _
        obtain ⟨hsum, hpre⟩ := h5 hn
        constructor
        · show q.pos + (q.len + 1) = (flatChain (q.front ++ [q.tailV]) [some v]).length
          rw [flatChain_append_one, flatChain_tl_append]
          simp only [List.length_append, List.length_singleton]
          omega
        · intro i hi
          have hp2 := hpre i hi
          unfold Queueimpl3.headV at hp2
          cases hf : q.front with
          | nil =>
            rw [hf] at hp2
            show q.tailV[i]? = some none
            exact hp2
          | cons b rest =>
            rw [hf] at hp2
            show b[i]? = some none
            exact hp2
    · rw [if_pos rfl]
      refine ⟨h1, h2, ?_, ?_, ?_⟩
      · show ([some v] : List (Option α)).length ≤ internalSliceSize
        simp [internalSliceSize]
      · intro _
        exact h4 hn
      · intro hcontra
        exact absurd hcontra.symm Bool.false_ne_true
  · rw [if_neg hfull]
    refine ⟨h1, h2, ?_, ?_, ?_⟩
    · show (q.tailV ++ [some v]).length ≤ internalSliceSize
      simp only [List.length_append, List.length_singleton]
      omega
    · intro hn
      exact h4 hn
    · intro hn
      obtain ⟨hsum, hpre⟩ := h5 hn
      constructor
      · show q.pos + (q.len + 1) = (flatChain q.front (q.tailV ++ [some v])).length
        rw [flatChain_tl_append]
        simp only [List.length_append, List.length_singleton]
        omega
      · intro i hi
        have hi2 : i < q.pos := hi
        unfold Queueimpl3.headV
        cases hf : q.front with
        | nil =>
          show (q.tailV ++ [some v])[i]? = some none
          rw [List.getElem?_append_left]
          · have := hpre i hi
            unfold Queueimpl3.headV at this
            rw [hf] at this
            exact this
          · rw [hf] at hsum
            simp only [flatChain_nil] at hsum
            omega
        | cons b rest =>
          show b[i]? = some none
          have := hpre i hi
          unfold Queueimpl3.headV at this
          rw [hf] at this
          exact this

theorem getElem?_set_self_of_lt {β : Type} (l : List β) (i : Nat) (a : β) (h : i < l.length) :
    (l.set i a)[i]? = some a := by
  rw [List.getElem?_set_self']
  simp [List.getElem?_eq_getElem h]

theorem QInv_pop {α : Type} {q : Queueimpl3 α} {v : Option α} {f : Bool} {q' : Queueimpl3 α}
    (h : QInv q) (hp : q.Pop = some (v, f, q')) : QInv q' := by
  obtain ⟨h1, h2, h3, h4, h5⟩ := h
  have h127 : internalSliceLastPosition = 127 := rfl
  have h128 : internalSliceSize = 128 := rfl
  rcases pop_cases hp with ⟨_, _, _, hq'⟩ | ⟨hlen, hn, _, hget, hbr⟩
  · rw [hq']
    exact ⟨h1, h2, h3, h4, h5⟩
  · obtain ⟨hsum, hpre⟩ := h5 hn
    have hposlt : q.pos < q.headV.length := by
      by_contra hcon
      rw [List.getElem?_eq_none (by omega)] at hget
      exact Option.noConfusion hget
    rcases hbr with ⟨hbd, hc⟩ | ⟨hbd, hc⟩
    · rcases hc with ⟨hf2, hq'⟩ | ⟨b, rest, hf2, hq'⟩
      · subst hq'
        refine ⟨?_, ?_, ?_, ?_, ?_⟩
        · show (0 : Nat) < internalSliceSize
          omega
        · show ∀ b ∈ q.front, b.length = internalSliceSize
          exact h2
        · show (q.tailV.set q.pos none).length ≤ internalSliceSize
          rw [List.length_set]
          exact h3
        · intro _
          exact ⟨hf2, rfl⟩
        · intro hcontra
          exact absurd hcontra.symm Bool.false_ne_true
      · subst hq'
        have hb128 : b.length = internalSliceSize :=
          h2 b (by rw [hf2]; exact List.mem_cons_self b rest)
        refine ⟨?_, ?_, h3, ?_, ?_⟩
        · show (0 : Nat) < internalSliceSize
          omega
        · show ∀ c ∈ rest, c.length = internalSliceSize
          intro c hc2
          exact h2 c (by rw [hf2]; exact List.mem_cons_of_mem b hc2)
        · intro hcontra
          rw [hn] at hcontra
          exact absurd hcontra Bool.false_ne_true
        · intro _
          constructor
          · show 0 + (q.len - 1) = (flatChain rest q.tailV).length
            rw [hf2] at hsum
            simp only [flatChain_cons, List.length_append] at hsum
            omega
          · intro i hi
            exact absurd hi (Nat.not_lt_zero i)
    · rcases hc with ⟨hf2, hq'⟩ | ⟨b, rest, hf2, hq'⟩
      · subst hq'
        have htv : q.headV = q.tailV := by
          unfold Queueimpl3.headV
          rw [hf2]
        refine ⟨?_, ?_, ?_, ?_, ?_⟩
        · show q.pos + 1 < internalSliceSize
          omega
        · show ∀ b ∈ q.front, b.length = internalSliceSize
          exact h2
        · show (q.tailV.set q.pos none).length ≤ internalSliceSize
          rw [List.length_set]
          exact h3
        · intro hcontra
          rw [hn] at hcontra
          exact absurd hcontra Bool.false_ne_true
        · intro _
          constructor
          · show (q.pos + 1) + (q.len - 1) =
              (flatChain q.front (q.tailV.set q.pos none)).length
            rw [hf2] at hsum ⊢
            simp only [flatChain_nil] at hsum
            simp only [flatChain_nil, List.length_set]
            omega
          · intro i hi
            have hi2 : i < q.pos + 1 := hi
            unfold Queueimpl3.headV
            rw [hf2]
            show (q.tailV.set q.pos none)[i]? = some none
            by_cases hip : i = q.pos
            · subst hip
              exact getElem?_set_self_of_lt q.tailV q.pos none (by rw [← htv]; exact hposlt)
            · rw [List.getElem?_set_ne (by omega)]
              have := hpre i (by omega)
              rw [htv] at this
              exact this
      · subst hq'
        have hb128 : b.length = internalSliceSize :=
          h2 b (by rw [hf2]; exact List.mem_cons_self b rest)
        have htv : q.headV = b := by
          unfold Queueimpl3.headV
          rw [hf2]
        refine ⟨?_, ?_, h3, ?_, ?_⟩
        · show q.pos + 1 < internalSliceSize
          omega
        · show ∀ c ∈ (b.set q.pos none) :: rest, c.length = internalSliceSize
          intro c hc2
          rcases List.mem_cons.1 hc2 with hc2 | hc2
          · rw [hc2, List.length_set]
            exact hb128
          · exact h2 c (by rw [hf2]; exact List.mem_cons_of_mem b hc2)
        · intro hcontra
          rw [hn] at hcontra
          exact absurd hcontra Bool.false_ne_true
        · intro _
          constructor
          · show (q.pos + 1) + (q.len - 1) =
              (flatChain ((b.set q.pos none) :: rest) q.tailV).length
            rw [hf2] at hsum
            simp only [flatChain_cons, List.length_append, List.length_set] at hsum ⊢
            omega
          · intro i hi
            have hi2 : i < q.pos + 1 := hi
            show (b.set q.pos none)[i]? = some none
            by_cases hip : i = q.pos
            · subst hip
              exact getElem?_set_self_of_lt b q.pos none (by rw [← htv]; exact hposlt)
            · rw [List.getElem?_set_ne (by omega)]
              have := hpre i (by omega)
              rw [htv] at this
              exact this

theorem reachable_QInv {α : Type} {q : Queueimpl3 α} (h : Reachable q) : QInv q := by
  induction h with
  | init => exact QInv_New
  | reinit q0 _ _ => exact QInv_New
  | push q0 v _ ih => exact QInv_push v ih
  | pop q0 v f q' _ hp ih => exact QInv_pop ih hp

theorem headV_eq_tailV {α : Type} (q : Queueimpl3 α) (h : q.front = []) :
    q.headV = q.tailV := by
  unfold Queueimpl3.headV
  rw [h]

theorem headV_eq_head {α : Type} (q : Queueimpl3 α) (b : List (Option α))
    (rest : List (List (Option α))) (h : q.front = b :: rest) : q.headV = b := by
  unfold Queueimpl3.headV
  rw [h]

theorem pop_len_found {α : Type} {q : Queueimpl3 α} {v : Option α} {f : Bool}
    {q' : Queueimpl3 α} (hp : q.Pop = some (v, f, q')) :
    (f = true ∧ q'.len + 1 = q.len) ∨ (f = false ∧ q' = q ∧ q.len = 0) := by
  rcases pop_cases hp with ⟨hlen, _, hf, hq'⟩ | ⟨hlen, _, hf, _, hbr⟩
  · exact Or.inr ⟨hf, hq', hlen⟩
  · left
    refine ⟨hf, ?_⟩
    rcases hbr with ⟨_, hc⟩ | ⟨_, hc⟩ <;>
      rcases hc with ⟨_, hq'⟩ | ⟨b, rest, _, hq'⟩ <;>
      (subst hq'; show q.len - 1 + 1 = q.len; omega)

theorem runOps_len {α : Type} (ops : List (Op α)) :
    ∀ (q0 q : Queueimpl3 α) (p s : Nat), runOps q0 ops = some (q, p, s) →
      q.len + s = q0.len + p := by
  induction ops with
  | nil =>
    intro q0 q p s h
    simp only [runOps, Option.some.injEq, Prod.mk.injEq] at h
    obtain ⟨hq, hp2, hs⟩ := h
    subst hq
    omega
  | cons op rest ih =>
    intro q0 q p s h
    cases op with
    | push v =>
      unfold runOps at h
      cases hrec : runOps (q0.Push v) rest with
      | none =>
        rw [hrec] at h
        exact Option.noConfusion h
      | some t =>
        obtain ⟨q1, p1, s1⟩ := t
        rw [hrec] at h
        simp only [Option.some.injEq, Prod.mk.injEq] at h
        obtain ⟨hq, hp2, hs⟩ := h
        subst hq
        have hih := ih (q0.Push v) q1 p1 s1 hrec
        rw [push_len] at hih
        omega
    | pop =>
      unfold runOps at h
      cases hpop : q0.Pop with
      | none =>
        rw [hpop] at h
        exact Option.noConfusion h
      | some t =>
        obtain ⟨v1, f1, q1⟩ := t
        rw [hpop] at h
        cases hrec : runOps q1 rest with
        | none =>
          simp only [hrec] at h
          exact Option.noConfusion h
        | some t2 =>
          obtain ⟨q2, p2, s2⟩ := t2
          simp only [hrec, Option.some.injEq, Prod.mk.injEq] at h
          obtain ⟨hq, hp2, hs⟩ := h
          subst hq
          have hih := ih q1 q2 p2 s2 hrec
          rcases pop_len_found hpop with ⟨hf, hl⟩ | ⟨hf, hqq, hl0⟩
          · subst hf
            simp only [if_true] at hs
            omega
          · subst hf
            subst hqq
            simp only [Bool.false_eq_true, if_false] at hs
            omega

theorem runOps_reachable {α : Type} (ops : List (Op α)) :
    ∀ (q0 q : Queueimpl3 α) (p s : Nat), Reachable q0 →
      runOps q0 ops = some (q, p, s) → Reachable q := by
  induction ops with
  | nil =>
    intro q0 q p s hr h
    simp only [runOps, Option.some.injEq, Prod.mk.injEq] at h
    rw [← h.1]
    exact hr
  | cons op rest ih =>
    intro q0 q p s hr h
    cases op with
    | push v =>
      unfold runOps at h
      cases hrec : runOps (q0.Push v) rest with
      | none =>
        rw [hrec] at h
        exact Option.noConfusion h
      | some t =>
        obtain ⟨q1, p1, s1⟩ := t
        rw [hrec] at h
        simp only [Option.some.injEq, Prod.mk.injEq] at h
        rw [← h.1]
        exact ih (q0.Push v) q1 p1 s1 (Reachable.push q0 v hr) hrec
    | pop =>
      unfold runOps at h
      cases hpop : q0.Pop with
      | none =>
        rw [hpop] at h
        exact Option.noConfusion h
      | some t =>
        obtain ⟨v1, f1, q1⟩ := t
        rw [hpop] at h
        cases hrec : runOps q1 rest with
        | none =>
          simp only [hrec] at h
          exact Option.noConfusion h
        | some t2 =>
          obtain ⟨q2, p2, s2⟩ := t2
          simp only [hrec, Option.some.injEq, Prod.mk.injEq] at h
          rw [← h.1]
          exact ih q1 q2 p2 s2 (Reachable.pop q0 v1 f1 q1 hr hpop) hrec

def drainOps : List (Op Nat) := List.replicate 128 (Op.push 0) ++ List.replicate 128 Op.pop

/-- The reachable empty state whose head pointer is nil: it arises from
pushing and fully popping exactly 128 values. -/
def qNil : Queueimpl3 Nat :=
  { front := [], tailV := List.replicate 128 none, headNil := true, pos := 0, len := 0 }

def bugOps : List (Op Nat) := drainOps ++ [Op.push 7]

/-- The reachable NON-empty state whose head pointer is nil. -/
def qBug : Queueimpl3 Nat :=
  { front := [], tailV := [some 7], headNil := true, pos := 0, len := 1 }

/-- C2: the totality claim fails on the code. After pushing 128 values,
popping all 128 and pushing one more value, the queue is reachable and has
`Len() == 1`, yet both `Pop` and `Front` dereference the nil `head` pointer
and panic (modelled as `none`) instead of completing successfully. -/
theorem totality_violated :
    runOps (Queueimpl3.New (α := Nat)) bugOps = some (qBug, 129, 128) ∧
    Reachable qBug ∧ qBug.Len = 1 ∧ qBug.Pop = none ∧ qBug.Front = none := by
  have hrun : runOps (Queueimpl3.New (α := Nat)) bugOps = some (qBug, 129, 128) := by decide
  exact ⟨hrun, runOps_reachable bugOps Queueimpl3.New qBug 129 128 Reachable.init hrun,
    rfl, by decide, by decide⟩

/-- C3: after any sequence of Push/Pop operations on a fresh queue that
completes without a panic, `Len()` equals the number of pushes minus the
number of successful pops, and that difference is never negative
(`Len() + pops = pushes` with `pops ≤ pushes`). -/
theorem len_counts {α : Type} (ops : List (Op α)) (q : Queueimpl3 α) (p s : Nat)
    (h : runOps Queueimpl3.New ops = some (q, p, s)) :
    q.Len + s = p ∧ s ≤ p := by
  have hl := runOps_len ops Queueimpl3.New q p s h
  have h0 : (Queueimpl3.New (α := α)).len = 0 := rfl
  have h1 : q.Len = q.len := rfl
  omega

theorem len_counts_witness :
    runOps (Queueimpl3.New (α := Nat)) [Op.push 3, Op.pop, Op.pop] =
      some ({ front := [], tailV := [none], headNil := false, pos := 1, len := 0 }, 1, 1) ∧
    ({ front := [], tailV := [none], headNil := false, pos := 1, len := 0 } :
        Queueimpl3 Nat).Len + 1 = 1 :=
  ⟨by decide, (len_counts [Op.push 3, Op.pop, Op.pop] _ 1 1 (by decide)).1⟩

/-- C4: on any state with `Len() == 0`, `Front` returns not-found, and any
number of repeated `Pop` calls all return not-found and leave the entire
queue state unchanged. -/
theorem empty_state_preserved {α : Type} (q : Queueimpl3 α) (h : q.Len = 0) (n : Nat) :
    q.Front = some (none, false) ∧ popN q n = some (List.replicate n (none, false), q) := by
  have hl : q.len = 0 := h
  have hpop : q.Pop = some (none, false, q) := by
    unfold Queueimpl3.Pop
    rw [if_pos hl]
  constructor
  · unfold Queueimpl3.Front
    rw [if_pos hl]
  · induction n with
    | zero => rfl
    | succ m ihm =>
      show popN q (m + 1) = _
      unfold popN
      rw [hpop]
      simp only [ihm, List.replicate_succ]

theorem empty_state_preserved_witness :
    (Queueimpl3.New (α := Nat)).Front = some (none, false) ∧
    popN (Queueimpl3.New (α := Nat)) 3 =
      some (List.replicate 3 (none, false), Queueimpl3.New) :=
  empty_state_preserved Queueimpl3.New rfl 3

/-- C7: in every reachable state the read cursor satisfies
`0 ≤ pos < internalSliceSize`; `New`/`Init` set it to 0 and `Push` never
modifies it (only `Pop` does). -/
theorem readPos_range {α : Type} (q : Queueimpl3 α) (hr : Reachable q) :
    q.pos < internalSliceSize ∧ (Queueimpl3.New (α := α)).pos = 0 ∧
    q.Init.pos = 0 ∧ ∀ v, (q.Push v).pos = q.pos :=
  ⟨(reachable_QInv hr).1, rfl, rfl, fun v => push_pos q v⟩

theorem readPos_range_witness :
    (Queueimpl3.New (α := Nat)).pos < internalSliceSize :=
  (readPos_range Queueimpl3.New Reachable.init).1

/-- C9: `Front` and `Pop` test the count against 0 before touching the head
block, so on every state with `Len() == 0` they return not-found without
reading any block — in particular on the reachable empty state whose head
pointer is nil (see the witness, which reaches that state by pushing and
fully popping exactly 128 values). -/
theorem empty_guard {α : Type} (q : Queueimpl3 α) (h : q.Len = 0) :
    q.Front = some (none, false) ∧ q.Pop = some (none, false, q) := by
  have hl : q.len = 0 := h
  constructor
  · unfold Queueimpl3.Front
    rw [if_pos hl]
  · unfold Queueimpl3.Pop
    rw [if_pos hl]

theorem empty_guard_witness :
    (runOps (Queueimpl3.New (α := Nat)) drainOps = some (qNil, 128, 128) ∧
      qNil.headNil = true ∧ qNil.Len = 0) ∧
    (qNil.Front = some (none, false) ∧ qNil.Pop = some (none, false, qNil)) :=
  ⟨⟨by decide, rfl, rfl⟩, empty_guard qNil rfl⟩

/-- C10: in every reachable state each block in the chain holds at most
`internalSliceSize` (128) values, and once the tail block has reached 128
values `Push` appends to a freshly allocated block instead. -/
theorem block_size_bound {α : Type} (q : Queueimpl3 α) (hr : Reachable q) :
    (∀ b ∈ q.front ++ [q.tailV], b.length ≤ internalSliceSize) ∧
    (∀ v, internalSliceSize ≤ q.tailV.length → (q.Push v).tailV = [some v]) := by
  obtain ⟨_, h2, h3, _, _⟩ := reachable_QInv hr
  constructor
  · intro b hb
    rcases List.mem_append.1 hb with hb | hb
    · exact le_of_eq (h2 b hb)
    · rw [List.mem_singleton.1 hb]
      exact h3
  · intro v hfull
    unfold Queueimpl3.Push
    rw [if_pos hfull]
    cases hn : q.headNil
    · rw [if_neg Bool.false_ne_true]
    · rw [if_pos rfl]

theorem block_size_bound_witness :
    (Queueimpl3.New (α := Nat)).tailV.length ≤ internalSliceSize :=
  (block_size_bound Queueimpl3.New Reachable.init).1 (Queueimpl3.New (α := Nat)).tailV
    (by decide)

def retainOps : List (Op Nat) :=
  List.replicate 128 (Op.push 0) ++ List.replicate 127 Op.pop

/-- The reachable state one `Pop` away from retiring the block that is both
head and tail: `pos = 127`, one value left, `head == tail`. -/
def qPre : Queueimpl3 Nat :=
  { front := [], tailV := List.replicate 127 none ++ [some 0], headNil := false,
    pos := 127, len := 1 }

theorem retain_trace :
    runOps (Queueimpl3.New (α := Nat)) retainOps = some (qPre, 128, 127) := by decide

/-- C5 counterexample: the clause "the queue retains no reference into the
retired block" fails when the retired head block is also the tail block.
From the reachable state `qPre` (built by 128 pushes then 127 pops) the
successful `Pop` at `readPos = 127` retires the block from the head (the
head pointer becomes nil), yet the retired block — the old head slice after
its clearing write — is still referenced by the queue through the tail
pointer. -/
theorem pop_retired_block_retained :
    runOps (Queueimpl3.New (α := Nat)) retainOps = some (qPre, 128, 127) ∧
    qPre.pos = internalSliceLastPosition ∧
    qPre.Pop = some (some 0, true, qNil) ∧
    qPre.headV.set qPre.pos none ∈ qNil.refBlocks :=
  ⟨retain_trace, rfl, by decide, by decide⟩

/-- C5 (amended): on every successful `Pop` from a reachable state, if
`readPos` was `internalSliceLastPosition` (127) then afterwards `readPos` is
0 and the head has advanced to the old head's next node, dropping the
retired block from the head-reachable chain; when the old head was a node
distinct from the tail its next link is cleared and the queue retains no
reference into it, but when the old head was also the tail (`head == tail`,
so `head.n` is nil) the tail pointer still references the drained block.
Otherwise the head node is unchanged apart from the cleared slot and
`readPos` is incremented by exactly one. -/
theorem pop_cursor_step {α : Type} (q : Queueimpl3 α) (v : Option α) (q' : Queueimpl3 α)
    (hr : Reachable q) (hp : q.Pop = some (v, true, q')) :
    (q.pos = internalSliceLastPosition →
       q'.pos = 0 ∧ q'.liveBlocks = q.liveBlocks.tail ∧
       (q.front = [] → q'.tailV = q.headV.set q.pos none) ∧
       (q.front ≠ [] → q'.refBlocks = q.refBlocks.tail)) ∧
    (q.pos ≠ internalSliceLastPosition →
       q'.pos = q.pos + 1 ∧
       q'.liveBlocks = q.liveBlocks.set 0 (q.headV.set q.pos none)) := by
  obtain ⟨h1, _, _, _, _⟩ := reachable_QInv hr
  have h127 : internalSliceLastPosition = 127 := rfl
  have h128 : internalSliceSize = 128 := rfl
  rcases pop_cases hp with ⟨_, _, hf, _⟩ | ⟨hlen, hn, _, hget, hbr⟩
  · exact Bool.noConfusion hf
  · rcases hbr with ⟨hbd, hc⟩ | ⟨hbd, hc⟩
    · have hpos : q.pos = internalSliceLastPosition := by omega
      constructor
      · intro _
        rcases hc with ⟨hf2, hq'⟩ | ⟨b, rest, hf2, hq'⟩
        · subst hq'
          refine ⟨rfl, by simp [Queueimpl3.liveBlocks, hn, hf2], ?_, ?_⟩
          · intro _
            show q.tailV.set q.pos none = q.headV.set q.pos none
            rw [headV_eq_tailV q hf2]
          · intro hne
            exact absurd hf2 hne
        · subst hq'
          refine ⟨rfl, by simp [Queueimpl3.liveBlocks, hn, hf2], ?_, ?_⟩
          · intro hcontra
            rw [hf2] at hcontra
            exact List.noConfusion hcontra
          · intro _
            show Queueimpl3.refBlocks _ = _
            simp [Queueimpl3.refBlocks, hn, hf2]
      · intro hne
        exact absurd hpos hne
    · have hposne : q.pos ≠ internalSliceLastPosition := by omega
      constructor
      · intro hcontra
        exact absurd hcontra hposne
      · intro _
        rcases hc with ⟨hf2, hq'⟩ | ⟨b, rest, hf2, hq'⟩
        · subst hq'
          have htv : q.headV = q.tailV := headV_eq_tailV q hf2
          exact ⟨rfl, by simp [Queueimpl3.liveBlocks, hn, hf2, htv]⟩
        · subst hq'
          have htb : q.headV = b := headV_eq_head q b rest hf2
          exact ⟨rfl, by simp [Queueimpl3.liveBlocks, hn, hf2, htb]⟩

theorem pop_cursor_step_witness :
    qPre.Pop = some (some 0, true, qNil) ∧
    (qNil.pos = 0 ∧ qNil.liveBlocks = qPre.liveBlocks.tail ∧
      (qPre.front = [] → qNil.tailV = qPre.headV.set qPre.pos none) ∧
      (qPre.front ≠ [] → qNil.refBlocks = qPre.refBlocks.tail)) :=
  ⟨by decide,
    (pop_cursor_step qPre (some 0) qNil
      (runOps_reachable retainOps Queueimpl3.New qPre 128 127 Reachable.init retain_trace)
      (by decide)).1 rfl⟩

/-- C6: `Push v` always increments the count by exactly one; if the tail
block already holds `internalSliceSize` (128) values the pushed value ends
up as the sole element of a freshly allocated block that is linked behind
the old tail, otherwise it is appended to the existing tail block; in both
cases the stored sequence only grows by `v` at its end — no existing element
is moved or overwritten. -/
theorem push_step {α : Type} (q : Queueimpl3 α) (v : α) (_hr : Reachable q) :
    (q.Push v).Len = q.Len + 1 ∧
    (internalSliceSize ≤ q.tailV.length →
       (q.Push v).tailV = [some v] ∧
       (q.headNil = false → (q.Push v).front = q.front ++ [q.tailV])) ∧
    (q.tailV.length < internalSliceSize →
       (q.Push v).tailV = q.tailV ++ [some v] ∧ (q.Push v).front = q.front) ∧
    (q.headNil = false →
       flatChain (q.Push v).front (q.Push v).tailV =
         flatChain q.front q.tailV ++ [some v]) := by
  unfold Queueimpl3.Push Queueimpl3.Len
  by_cases hfull : internalSliceSize ≤ q.tailV.length
  · rw [if_pos hfull]
    cases hn : q.headNil
    · rw [if_neg Bool.false_ne_true]
      refine ⟨rfl, ?_, ?_, ?_⟩
      · intro _
        exact ⟨rfl, fun _ => rfl⟩
      · intro hlt
        exact absurd hfull (Nat.not_le.mpr hlt)
      · intro _
        rw [flatChain_append_one, flatChain_tl_append]
    · rw [if_pos rfl]
      refine ⟨rfl, ?_, ?_, ?_⟩
      · intro _
        exact ⟨rfl, fun hcontra => Bool.noConfusion hcontra⟩
      · intro hlt
        exact absurd hfull (Nat.not_le.mpr hlt)
      · intro hcontra
        exact Bool.noConfusion hcontra
  · rw [if_neg hfull]
    refine ⟨rfl, ?_, ?_, ?_⟩
    · intro hc
      exact absurd hc hfull
    · intro _
      exact ⟨rfl, rfl⟩
    · intro _
      rw [flatChain_tl_append]

theorem push_step_witness :
    (Queueimpl3.New.Push (7 : Nat)).Len = (Queueimpl3.New (α := Nat)).Len + 1 ∧
    (Queueimpl3.New.Push (7 : Nat)).tailV = (Queueimpl3.New (α := Nat)).tailV ++ [some 7] :=
  ⟨(push_step Queueimpl3.New 7 Reachable.init).1,
    ((push_step Queueimpl3.New 7 Reachable.init).2.2.1 (by decide)).1⟩

/-- C8: after every successful `Pop` from a reachable state, the slot that
held the returned value has been overwritten with nil; consequently, when
the head block is retired (the `readPos = 127` case) all 128 of its slots
have been cleared. -/
theorem pop_clears_slot {α : Type} (q : Queueimpl3 α) (v : Option α) (q' : Queueimpl3 α)
    (hr : Reachable q) (hp : q.Pop = some (v, true, q')) :
    (q.pos < internalSliceLastPosition → q'.headV[q.pos]? = some none) ∧
    (internalSliceLastPosition ≤ q.pos →
       q.headV.set q.pos none = List.replicate internalSliceSize none) := by
  obtain ⟨h1, h2, h3, h4, h5⟩ := reachable_QInv hr
  have h127 : internalSliceLastPosition = 127 := rfl
  have h128 : internalSliceSize = 128 := rfl
  rcases pop_cases hp with ⟨_, _, hf, _⟩ | ⟨hlen, hn, _, hget, hbr⟩
  · exact Bool.noConfusion hf
  · obtain ⟨hsum, hpre⟩ := h5 hn
    have hposlt : q.pos < q.headV.length := by
      by_contra hcon
      rw [List.getElem?_eq_none (by omega)] at hget
      exact Option.noConfusion hget
    have hVle : q.headV.length ≤ internalSliceSize := by
      cases hf2 : q.front with
      | nil =>
        rw [headV_eq_tailV q hf2]
        exact h3
      | cons b rest =>
        rw [headV_eq_head q b rest hf2]
        exact le_of_eq (h2 b (by rw [hf2]; exact List.mem_cons_self b rest))
    constructor
    · intro hlt
      rcases hbr with ⟨hbd, _⟩ | ⟨hbd, hc⟩
      · exact absurd hbd (by omega)
      · rcases hc with ⟨hf2, hq'⟩ | ⟨b, rest, hf2, hq'⟩
        · subst hq'
          have htv : q.headV = q.tailV := headV_eq_tailV q hf2
          have hrec : Queueimpl3.headV { q with tailV := q.tailV.set q.pos none, pos := q.pos + 1, len := q.len - 1 } = q.tailV.set q.pos none := headV_eq_tailV _ hf2
          rw [hrec]
          exact getElem?_set_self_of_lt _ _ _ (by rw [← htv]; exact hposlt)
        · subst hq'
          have htb : q.headV = b := headV_eq_head q b rest hf2
          have hrec : Queueimpl3.headV { q with front := (b.set q.pos none) :: rest, pos := q.pos + 1, len := q.len - 1 } = b.set q.pos none := headV_eq_head _ _ _ rfl
          rw [hrec]
          exact getElem?_set_self_of_lt _ _ _ (by rw [← htb]; exact hposlt)
    · intro hbd2
      have hVlen : q.headV.length = internalSliceSize := by omega
      have hall : ∀ c ∈ q.headV.set q.pos none, c = none := by
        intro c hc
        obtain ⟨i, hi⟩ := List.getElem?_of_mem hc
        by_cases hip : i = q.pos
        · subst hip
          rw [getElem?_set_self_of_lt _ _ _ (by omega)] at hi
          exact (Option.some.inj hi).symm
        · rw [List.getElem?_set_ne (by omega)] at hi
          have hilt : i < q.headV.length := by
            by_contra hcon
            rw [List.getElem?_eq_none (by omega)] at hi
            exact Option.noConfusion hi
          have hcl := hpre i (by omega)
          rw [hcl] at hi
          exact (Option.some.inj hi).symm
      have hlenset : (q.headV.set q.pos none).length = internalSliceSize := by
        rw [List.length_set]
        exact hVlen
      rw [show internalSliceSize = (q.headV.set q.pos none).length from hlenset.symm]
      exact List.eq_replicate_length.2 hall

theorem pop_clears_slot_witness :
    (Queueimpl3.New.Push (9 : Nat)).Pop =
      some (some 9, true, { front := [], tailV := [none], headNil := false,
                            pos := 1, len := 0 }) ∧
    ({ front := [], tailV := [none], headNil := false, pos := 1,
        len := 0 } : Queueimpl3 Nat).headV[(Queueimpl3.New.Push (9 : Nat)).pos]? =
      some none :=
  ⟨by decide,
    (pop_clears_slot (Queueimpl3.New.Push 9) (some 9) _
      (Reachable.push Queueimpl3.New 9 Reachable.init) (by decide)).1 (by decide)⟩
